import Mathlib

/-!
Verification of the TokenizerFFI adapter (src/TokenizerFFI/src/lib.rs), a
C-compatible foreign-function boundary around a byte-pair-encoding (BPE)
tokenizer engine.

Modelling conventions:
* Bytes are `Nat` values below 256; a nul-terminated C string that is
  non-null is modelled as `some bytes`, where `bytes` is the list of bytes
  before the terminating NUL; a null pointer is `none`.
* The caller's `c_int` output buffer for encode is a `List Int` of the
  caller's allocated cells; writing `k` ids replaces the first `k` cells.
* `c_int`/`u32` value casts (`*token as c_int`, `t as u32`) are modelled
  exactly, with two's-complement wraparound.
* The tokenizer engine (the `tiktoken_rs` crate, not part of src/) is
  modelled from the spec, see `Engine` below.
-/

set_option maxRecDepth 100000

/-- Decides whether a byte is a UTF-8 continuation byte (0x80..0xBF). -/
def isCont (b : Nat) : Bool := 128 ≤ b && b ≤ 191

/-- Validity of a byte list as UTF-8, exactly the condition Rust's
`str::from_utf8` (used by `CStr::to_str` and `String::from_utf8`) checks:
ASCII, 2-byte forms C2..DF, 3-byte forms excluding overlongs (E0 requires
A0..BF) and surrogates (ED requires 80..9F), 4-byte forms excluding
overlongs (F0 requires 90..BF) and values above U+10FFFF (F4 requires
80..8F). -/
def isValidUtf8 : List Nat → Bool
  | [] => true
  | b :: rest =>
    if b ≤ 127 then isValidUtf8 rest
    else if 194 ≤ b && b ≤ 223 then
      match rest with
      | c1 :: r => isCont c1 && isValidUtf8 r
      | [] => false
    else if b = 224 then
      match rest with
      | c1 :: c2 :: r => (160 ≤ c1 && c1 ≤ 191) && isCont c2 && isValidUtf8 r
      | _ => false
    else if (225 ≤ b && b ≤ 236) || 238 ≤ b && b ≤ 239 then
      match rest with
      | c1 :: c2 :: r => isCont c1 && isCont c2 && isValidUtf8 r
      | _ => false
    else if b = 237 then
      match rest with
      | c1 :: c2 :: r => (128 ≤ c1 && c1 ≤ 159) && isCont c2 && isValidUtf8 r
      | _ => false
    else if b = 240 then
      match rest with
      | c1 :: c2 :: c3 :: r =>
        (144 ≤ c1 && c1 ≤ 191) && isCont c2 && isCont c3 && isValidUtf8 r
      | _ => false
    else if 241 ≤ b && b ≤ 243 then
      match rest with
      | c1 :: c2 :: c3 :: r => isCont c1 && isCont c2 && isCont c3 && isValidUtf8 r
      | _ => false
    else if b = 244 then
      match rest with
      | c1 :: c2 :: c3 :: r =>
        (128 ≤ c1 && c1 ≤ 143) && isCont c2 && isCont c3 && isValidUtf8 r
      | _ => false
    else false

/-! ### BPE engine

Modelled from the spec: the engine itself lives in the external
`tiktoken_rs` crate, not under src/. The spec describes it as a vocabulary
(token id ↔ byte sequence), a ranked merge table, a pre-tokenization pass
splitting text into chunks, and a greedy lowest-rank-first iterative
pair-merge within each chunk; decode concatenates the byte sequences of
the ids and fails when an id is out of range. -/

/-- Ranks of adjacent group pairs: entry `i` is the merge-table rank of the
pair `(groups[i], groups[i+1])`, `none` when the pair is not in the table. -/
def pairRanks (ranks : List Nat → List Nat → Option Nat) :
    List (List Nat) → List (Option Nat)
  | [] => []
  | [_] => []
  | a :: b :: rest => ranks a b :: pairRanks ranks (b :: rest)

/-- Position and rank of the lowest-ranked mergeable pair, leftmost on
ties; `none` when no pair has a rank. -/
def bestPairAux : List (Option Nat) → Option (Nat × Nat)
  | [] => none
  | none :: rest =>
    match bestPairAux rest with
    | some (j, r) => some (j + 1, r)
    | none => none
  | some r :: rest =>
    match bestPairAux rest with
    | some (j, r') => if r' < r then some (j + 1, r') else some (0, r)
    | none => some (0, r)

/-- Merges the adjacent groups at positions `i` and `i + 1` into one. -/
def mergeAt : List (List Nat) → Nat → List (List Nat)
  | [], _ => []
  | [a], _ => [a]
  | a :: b :: rest, 0 => (a ++ b) :: rest
  | a :: b :: rest, n + 1 => a :: mergeAt (b :: rest) n

/-- One greedy merge step: merges the lowest-ranked adjacent pair, or
returns `none` when no adjacent pair is in the merge table. -/
def mergeStep (ranks : List Nat → List Nat → Option Nat)
    (groups : List (List Nat)) : Option (List (List Nat)) :=
  match bestPairAux (pairRanks ranks groups) with
  | some (i, _) => some (mergeAt groups i)
  | none => none

/-- Fuelled greedy merge loop; each successful step removes one group, so
fuel `groups.length` always reaches the fixpoint (`bpeMerge_fixpoint`). -/
def bpeMergeFuel (ranks : List Nat → List Nat → Option Nat) :
    Nat → List (List Nat) → List (List Nat)
  | 0, groups => groups
  | n + 1, groups =>
    match mergeStep ranks groups with
    | some groups' => bpeMergeFuel ranks n groups'
    | none => groups

/-- Greedy iterative pair-merging: repeatedly merge the adjacent pair with
the lowest merge-table rank until no mergeable pair remains. -/
def bpeMerge (ranks : List Nat → List Nat → Option Nat)
    (groups : List (List Nat)) : List (List Nat) :=
  bpeMergeFuel ranks groups.length groups

/-- Index of a byte group in the vocabulary (its token id). -/
def bytesToId (vocab : List (List Nat)) (g : List Nat) : Nat :=
  match vocab with
  | [] => 0
  | v :: rest => if v = g then 0 else bytesToId rest g + 1

/-- Modelled from the spec: the BPE engine of the external `tiktoken_rs`
crate. `vocab` maps each token id (the list position) to its byte
sequence; `ranks` is the merge table; `pretokenize` is the fixed chunking
rule applied before merging, whose chunks concatenate back to the input. -/
structure Engine where
  vocab : List (List Nat)
  ranks : List Nat → List Nat → Option Nat
  pretokenize : List Nat → List (List Nat)

/-- Encodes one pre-tokenization chunk: greedy-merges its single-byte
groups and maps each final group to its vocabulary id. -/
def Engine.encodeChunk (e : Engine) (chunk : List Nat) : List Nat :=
  (bpeMerge e.ranks (chunk.map fun b => [b])).map (bytesToId e.vocab)

/-- Modelled from the spec: `CoreBPE::encode_ordinary` — split the input
into pre-tokenization chunks, BPE-encode each chunk, concatenate the ids. -/
def Engine.encodeOrdinary (e : Engine) (x : List Nat) : List Nat :=
  ((e.pretokenize x).map e.encodeChunk).flatten

/-- Modelled from the spec: raw byte decoding — concatenates the byte
sequence of each id, failing when any id is outside `[0, vocab.length)`. -/
def Engine.decodeBytes (e : Engine) (ids : List Nat) : Option (List Nat) :=
  if ids.all (fun i => i < e.vocab.length) then
    some ((ids.map fun i => e.vocab.getD i []).flatten)
  else none

/-- Modelled from the spec: `CoreBPE::decode` — decodes raw bytes and then
requires them to be valid text (Rust's `String::from_utf8`), failing
otherwise. -/
def Engine.decode (e : Engine) (ids : List Nat) : Option (List Nat) :=
  match e.decodeBytes ids with
  | some bs => if isValidUtf8 bs then some bs else none
  | none => none

/-! ### FFI adapter (src/TokenizerFFI/src/lib.rs) -/

/-- Cast of a `u32` token id to `c_int` (`*token as c_int`, two's
complement wraparound). -/
def i32ofU32 (t : Nat) : Int :=
  if t % 2 ^ 32 < 2 ^ 31 then ((t % 2 ^ 32 : Nat) : Int)
  else ((t % 2 ^ 32 : Nat) : Int) - 2 ^ 32

/-- Cast of a `c_int` array element to `u32` (`t as u32`, two's complement
wraparound). -/
def u32ofI32 (t : Int) : Nat := (t % 2 ^ 32).toNat

/-- The adapter's process-wide state: the `TOKENIZER` static, the
completion flag of the `INIT` `Once`, and a count of how many times the
`call_once` body (the vocabulary load) has actually run. -/
structure FfiState where
  tokenizer : Option Engine
  initDone : Bool
  loadCount : Nat

/-- The state at process start: `TOKENIZER = None`, `INIT` not yet run. -/
def initState : FfiState := ⟨none, false, 0⟩

/-- Model of `tokenizer_initialize`: `load` is the (fixed, process-wide)
outcome of `cl100k_base()` on the bundled resource. `INIT.call_once` runs
the load exactly once — also when it fails — and every call then returns
0 or -1 by inspecting whether `TOKENIZER` is set. -/
def tokenizer_init (load : Option Engine) (s : FfiState) : FfiState × Int :=
  let s' := if s.initDone then s
    else { tokenizer := load, initDone := true, loadCount := s.loadCount + 1 }
  (s', if s'.tokenizer.isSome then 0 else -1)

/-- `N` successive calls of `tokenizer_initialize` from state `s`. -/
def initN (load : Option Engine) : Nat → FfiState → FfiState
  | 0, s => s
  | n + 1, s => initN load n (tokenizer_init load s).1

/-- Model of `tokenizer_count_tokens`: null pointer returns 0; bytes that
are not valid UTF-8 (`CStr::to_str` failure) return -1; the empty string
returns 0; an unset `TOKENIZER` returns -1; otherwise the length of the
encoding, cast with the source's wrapping `tokens.len() as c_int`. -/
def tokenizer_count_tokens (s : FfiState) (text : Option (List Nat)) : Int :=
  match text with
  | none => 0
  | some bytes =>
    if isValidUtf8 bytes then
      if bytes = [] then 0
      else
        match s.tokenizer with
        | some bpe => i32ofU32 (bpe.encodeOrdinary bytes).length
        | none => -1
    else -1

/-- Model of `tokenizer_encode`: returns the `c_int` result together with
the caller's buffer after the call. Null text or null buffer returns -1
with the buffer untouched; invalid UTF-8 returns -1; with the engine set
it writes the first `min(count, buffer_size)` ids (cast to `c_int`) into
the buffer's leading cells and returns the full count, cast with the
source's wrapping `tokens.len() as c_int`. -/
def tokenizer_encode (s : FfiState) (text : Option (List Nat))
    (buf : Option (List Int)) (bufferSize : Nat) : Int × Option (List Int) :=
  match text, buf with
  | none, b => (-1, b)
  | some _, none => (-1, none)
  | some bytes, some buffer =>
    if isValidUtf8 bytes then
      match s.tokenizer with
      | some bpe =>
        let tokens := bpe.encodeOrdinary bytes
        let written := (tokens.take (min tokens.length bufferSize)).map i32ofU32
        (i32ofU32 tokens.length, some (written ++ buffer.drop written.length))
      | none => (-1, some buffer)
    else (-1, some buffer)

/-- Model of `tokenizer_decode`: `arr` is the pointed-to `c_int` array
(`none` for a null pointer) and `tokenCount` the count argument; the
result is the returned C string's bytes, `none` for a null return. Null
or zero count returns null; each array element is cast to `u32`;
`CString::new` fails — returning null — exactly when the decoded text
contains a NUL byte. -/
def tokenizer_decode (s : FfiState) (arr : Option (List Int))
    (tokenCount : Nat) : Option (List Nat) :=
  match arr with
  | none => none
  | some tokens =>
    if tokenCount = 0 then none
    else
      match s.tokenizer with
      | some bpe =>
        match bpe.decode ((tokens.take tokenCount).map u32ofI32) with
        | some text => if 0 ∈ text then none else some text
        | none => none
      | none => none

/-- Model of `tokenizer_free_string`: the heap is the list of live
allocations; a null handle leaves it unchanged, otherwise the allocation
is released. -/
def tokenizer_free_string (heap : List Nat) (handle : Option Nat) : List Nat :=
  match handle with
  | none => heap
  | some p => heap.erase p

/-- Model of `tokenizer_is_ready`: 1 when `TOKENIZER` is set, else 0. -/
def tokenizer_is_ready (s : FfiState) : Int :=
  if s.tokenizer.isSome then 1 else 0

/-! ### Concrete model vocabulary

Modelled from the spec: the cl100k vocabulary/merge-table resource is
external (bundled data consumed by `cl100k_base()`, not under src/). The
model keeps the spec's structural guarantees — all 256 single bytes are
vocabulary entries, every merge-table pair's concatenation is a
vocabulary entry — and carries the merges the spec's concrete scenario
names: `"Hello, world!"` splits into the three tokens `"Hello"`,
`", world"`, `"!"`. -/

/-- Looks up the rank of an ordered pair of byte groups in a table. -/
def lookupRank (table : List ((List Nat × List Nat) × Nat))
    (a b : List Nat) : Option Nat :=
  match table with
  | [] => none
  | ((x, y), r) :: rest =>
    if x = a && y = b then some r else lookupRank rest a b

/-- Merge table of the model vocabulary: the merge chains building
`"Hello"` (bytes 72 101 108 108 111) and `", world"` (44 32 119 111 114
108 100), ranked in creation order. -/
def mTable : List ((List Nat × List Nat) × Nat) :=
  [(([72], [101]), 0),
   (([72, 101], [108]), 1),
   (([72, 101, 108], [108]), 2),
   (([72, 101, 108, 108], [111]), 3),
   (([44], [32]), 4),
   (([44, 32], [119]), 5),
   (([44, 32, 119], [111]), 6),
   (([44, 32, 119, 111], [114]), 7),
   (([44, 32, 119, 111, 114], [108]), 8),
   (([44, 32, 119, 111, 114, 108], [100]), 9)]

/-- Model vocabulary: the 256 single-byte tokens (id = byte value)
followed by the merge products of `mTable`. -/
def mVocab : List (List Nat) :=
  (List.range 256).map (fun b => [b]) ++
    [[72, 101], [72, 101, 108], [72, 101, 108, 108], [72, 101, 108, 108, 111],
     [44, 32], [44, 32, 119], [44, 32, 119, 111], [44, 32, 119, 111, 114],
     [44, 32, 119, 111, 114, 108], [44, 32, 119, 111, 114, 108, 100]]

/-- The concrete model engine; its pre-tokenizer treats a non-empty input
as a single chunk, so chunks always concatenate back to the input. -/
def mEngine : Engine :=
  ⟨mVocab, lookupRank mTable, fun x => if x = [] then [] else [x]⟩

/-- The bytes of `"Hello, world!"`. -/
def helloWorld : List Nat :=
  [72, 101, 108, 108, 111, 44, 32, 119, 111, 114, 108, 100, 33]

/-! ### Helper lemmas about the greedy merge -/

/-- Merging two adjacent groups leaves the concatenated bytes unchanged. -/
theorem mergeAt_flatten (gs : List (List Nat)) (i : Nat) :
    (mergeAt gs i).flatten = gs.flatten := by
  induction gs generalizing i with
  | nil => cases i <;> rfl
  | cons a rest ih =>
    cases rest with
    | nil => cases i <;> rfl
    | cons b rest' =>
      cases i with
      | zero => simp [mergeAt, List.append_assoc]
      | succ n =>
        have := ih n
        simp only [mergeAt, List.flatten_cons] at this ⊢
        rw [this]

/-- The greedy merge loop leaves the concatenated bytes unchanged. -/
theorem bpeMergeFuel_flatten (ranks : List Nat → List Nat → Option Nat)
    (n : Nat) (gs : List (List Nat)) :
    (bpeMergeFuel ranks n gs).flatten = gs.flatten := by
  induction n generalizing gs with
  | zero => rfl
  | succ m ih =>
    rw [bpeMergeFuel]
    cases h : mergeStep ranks gs with
    | none => rfl
    | some gs' =>
      rw [ih gs']
      rw [mergeStep] at h
      cases hb : bestPairAux (pairRanks ranks gs) with
      | none => rw [hb] at h; exact absurd h (by simp)
      | some p =>
        rw [hb] at h
        cases h
        exact mergeAt_flatten gs p.1

/-- The index returned by `bestPairAux` carries the rank stored at that
position of the pair-rank list. -/
theorem bestPairAux_get (l : List (Option Nat)) (i rk : Nat)
    (h : bestPairAux l = some (i, rk)) : l[i]? = some (some rk) := by
  induction l generalizing i rk with
  | nil => exact absurd h (by simp [bestPairAux])
  | cons o rest ih =>
    cases o with
    | none =>
      rw [bestPairAux] at h
      split at h
      · rename_i j r heq
        simp only [Option.some.injEq, Prod.mk.injEq] at h
        obtain ⟨hi, hrk⟩ := h
        subst hi
        subst hrk
        simpa using ih j r heq
      · exact absurd h (by simp)
    | some r =>
      rw [bestPairAux] at h
      split at h
      · rename_i j r' heq
        split at h
        · simp only [Option.some.injEq, Prod.mk.injEq] at h
          obtain ⟨hi, hrk⟩ := h
          subst hi
          subst hrk
          simpa using ih j r' heq
        · simp only [Option.some.injEq, Prod.mk.injEq] at h
          obtain ⟨hi, hrk⟩ := h
          subst hi
          subst hrk
          simp
      · simp only [Option.some.injEq, Prod.mk.injEq] at h
        obtain ⟨hi, hrk⟩ := h
        subst hi
        subst hrk
        simp

/-- Position `i` of the pair-rank list is the merge-table entry of the
adjacent groups at positions `i` and `i + 1`. -/
theorem pairRanks_get (ranks : List Nat → List Nat → Option Nat)
    (gs : List (List Nat)) (i : Nat) (o : Option Nat)
    (h : (pairRanks ranks gs)[i]? = some o) :
    ∃ a b, gs[i]? = some a ∧ gs[i + 1]? = some b ∧ o = ranks a b := by
  induction gs generalizing i with
  | nil => exact absurd h (by simp [pairRanks])
  | cons a rest ih =>
    cases rest with
    | nil => exact absurd h (by simp [pairRanks])
    | cons b rest' =>
      cases i with
      | zero =>
        simp only [pairRanks, List.getElem?_cons_zero, Option.some.injEq] at h
        exact ⟨a, b, by simp, by simp, h.symm⟩
      | succ n =>
        simp only [pairRanks, List.getElem?_cons_succ] at h
        obtain ⟨x, y, h1, h2, h3⟩ := ih n h
        exact ⟨x, y, by simpa using h1, by simpa using h2, h3⟩

/-- Merging the pair at position `i` keeps every group inside `vocab`
provided the merged pair's concatenation is in `vocab`. -/
theorem mergeAt_mem (vocab : List (List Nat)) (gs : List (List Nat))
    (i : Nat) (a b : List Nat) (ha : gs[i]? = some a) (hb : gs[i + 1]? = some b)
    (hgs : ∀ g ∈ gs, g ∈ vocab) (hab : a ++ b ∈ vocab) :
    ∀ g ∈ mergeAt gs i, g ∈ vocab := by
  induction gs generalizing i with
  | nil => simp at ha
  | cons x rest ih =>
    cases rest with
    | nil => simp at hb
    | cons y rest' =>
      cases i with
      | zero =>
        rw [List.getElem?_cons_zero, Option.some.injEq] at ha
        rw [List.getElem?_cons_succ, List.getElem?_cons_zero,
          Option.some.injEq] at hb
        subst ha
        subst hb
        intro g hg
        simp only [mergeAt] at hg
        rcases List.mem_cons.mp hg with h | h
        · exact h ▸ hab
        · exact hgs g (List.mem_cons_of_mem _ (List.mem_cons_of_mem _ h))
      | succ n =>
        rw [List.getElem?_cons_succ] at ha hb
        intro g hg
        simp only [mergeAt] at hg
        rcases List.mem_cons.mp hg with h | h
        · exact hgs g (h ▸ List.mem_cons_self _ _)
        · exact ih n ha hb
            (fun g' hg' => hgs g' (List.mem_cons_of_mem _ hg')) g h

/-- A successful merge step keeps every group inside `vocab`, given the
merge-table closure property. -/
theorem mergeStep_mem (vocab : List (List Nat))
    (ranks : List Nat → List Nat → Option Nat) (gs gs' : List (List Nat))
    (h : mergeStep ranks gs = some gs')
    (hgs : ∀ g ∈ gs, g ∈ vocab)
    (hm : ∀ a b r, ranks a b = some r → a ++ b ∈ vocab) :
    ∀ g ∈ gs', g ∈ vocab := by
  rw [mergeStep] at h
  cases hbp : bestPairAux (pairRanks ranks gs) with
  | none => rw [hbp] at h; exact absurd h (by simp)
  | some p =>
    obtain ⟨i, rk⟩ := p
    rw [hbp] at h
    cases h
    have hget := bestPairAux_get _ _ _ hbp
    obtain ⟨a, b, ha, hb, ho⟩ := pairRanks_get ranks gs i (some rk) hget
    exact mergeAt_mem vocab gs i a b ha hb hgs (hm a b rk ho.symm)

/-- The greedy merge loop keeps every group inside `vocab`. -/
theorem bpeMergeFuel_mem (vocab : List (List Nat))
    (ranks : List Nat → List Nat → Option Nat) (n : Nat)
    (gs : List (List Nat)) (hgs : ∀ g ∈ gs, g ∈ vocab)
    (hm : ∀ a b r, ranks a b = some r → a ++ b ∈ vocab) :
    ∀ g ∈ bpeMergeFuel ranks n gs, g ∈ vocab := by
  induction n generalizing gs with
  | zero => exact hgs
  | succ m ih =>
    rw [bpeMergeFuel]
    cases h : mergeStep ranks gs with
    | none => exact hgs
    | some gs' => exact ih gs' (mergeStep_mem vocab ranks gs gs' h hgs hm)

/-- A group present in the vocabulary has a token id in range. -/
theorem bytesToId_lt (vocab : List (List Nat)) (g : List Nat)
    (h : g ∈ vocab) : bytesToId vocab g < vocab.length := by
  induction vocab with
  | nil => simp at h
  | cons v rest ih =>
    by_cases hv : v = g
    · simp [bytesToId, hv]
    · have hg : g ∈ rest := by
        rcases List.mem_cons.mp h with h' | h'
        · exact absurd h'.symm hv
        · exact h'
      simpa [bytesToId, hv] using Nat.succ_lt_succ (ih hg)

/-- Looking up the token id of a vocabulary group returns the group. -/
theorem bytesToId_getD (vocab : List (List Nat)) (g : List Nat)
    (h : g ∈ vocab) : vocab.getD (bytesToId vocab g) [] = g := by
  induction vocab with
  | nil => simp at h
  | cons v rest ih =>
    by_cases hv : v = g
    · simp [bytesToId, hv]
    · have hg : g ∈ rest := by
        rcases List.mem_cons.mp h with h' | h'
        · exact absurd h'.symm hv
        · exact h'
      show (v :: rest).getD (if v = g then 0 else bytesToId rest g + 1) [] = g
      rw [if_neg hv, List.getD_cons_succ]
      exact ih hg

/-- The pair-rank list has one entry per adjacent pair. -/
theorem pairRanks_length (ranks : List Nat → List Nat → Option Nat)
    (gs : List (List Nat)) : (pairRanks ranks gs).length = gs.length - 1 := by
  induction gs with
  | nil => rfl
  | cons a rest ih =>
    cases rest with
    | nil => rfl
    | cons b rest' =>
      simp only [pairRanks, List.length_cons] at ih ⊢
      omega

/-- Merging at a valid position removes exactly one group. -/
theorem mergeAt_length (gs : List (List Nat)) (i : Nat)
    (h : i + 1 < gs.length) : (mergeAt gs i).length + 1 = gs.length := by
  induction gs generalizing i with
  | nil => simp at h
  | cons a rest ih =>
    cases rest with
    | nil => simp at h
    | cons b rest' =>
      cases i with
      | zero => simp [mergeAt]
      | succ n =>
        have hn : n + 1 < (b :: rest').length := by
          simp only [List.length_cons] at h ⊢
          omega
        have hrec := ih n hn
        simp only [mergeAt, List.length_cons] at hrec ⊢
        omega

/-- A successful merge step removes exactly one group. -/
theorem mergeStep_length (ranks : List Nat → List Nat → Option Nat)
    (gs gs' : List (List Nat)) (h : mergeStep ranks gs = some gs') :
    gs'.length + 1 = gs.length := by
  rw [mergeStep] at h
  cases hbp : bestPairAux (pairRanks ranks gs) with
  | none => rw [hbp] at h; exact absurd h (by simp)
  | some p =>
    obtain ⟨i, rk⟩ := p
    rw [hbp] at h
    cases h
    have hget := bestPairAux_get _ _ _ hbp
    have hlt : i < (pairRanks ranks gs).length := by
      by_contra hge
      rw [List.getElem?_eq_none (Nat.le_of_not_lt hge)] at hget
      exact absurd hget (by simp)
    rw [pairRanks_length] at hlt
    exact mergeAt_length gs i (by omega)

/-- With fuel at least the number of groups, the greedy merge loop reaches
a state in which no adjacent pair is mergeable. -/
theorem bpeMergeFuel_fix (ranks : List Nat → List Nat → Option Nat)
    (n : Nat) : ∀ gs : List (List Nat), gs.length ≤ n →
    mergeStep ranks (bpeMergeFuel ranks n gs) = none := by
  induction n with
  | zero =>
    intro gs hlen
    have : gs = [] := List.length_eq_zero.mp (Nat.le_zero.mp hlen)
    subst this
    rfl
  | succ m ih =>
    intro gs hlen
    rw [bpeMergeFuel]
    cases h : mergeStep ranks gs with
    | none => exact h
    | some gs' =>
      have := mergeStep_length ranks gs gs' h
      exact ih gs' (by omega)

/-- The fuel `groups.length` used by `bpeMerge` suffices: the result has
no mergeable adjacent pair left, so `bpeMerge` computes exactly the
spec's merge-until-no-mergeable-pair-remains loop. -/
theorem bpeMerge_fixpoint (ranks : List Nat → List Nat → Option Nat)
    (gs : List (List Nat)) : mergeStep ranks (bpeMerge ranks gs) = none :=
  bpeMergeFuel_fix ranks gs.length gs (Nat.le_refl _)

/-- Splitting a byte list into its single-byte groups and concatenating
them gives back the list. -/
theorem flatten_singletons (l : List Nat) :
    (l.map fun b => [b]).flatten = l := by
  induction l with
  | nil => rfl
  | cons b rest ih => simp [ih]

/-- Encoding one chunk produces in-range ids whose vocabulary bytes
concatenate back to the chunk, provided all single bytes of the chunk are
vocabulary entries and the merge table is closed under the vocabulary. -/
theorem encodeChunk_decode (e : Engine) (chunk : List Nat)
    (hb : ∀ b ∈ chunk, [b] ∈ e.vocab)
    (hm : ∀ a b r, e.ranks a b = some r → a ++ b ∈ e.vocab) :
    (∀ t ∈ e.encodeChunk chunk, t < e.vocab.length) ∧
    ((e.encodeChunk chunk).map fun i => e.vocab.getD i []).flatten = chunk := by
  have hmem : ∀ g ∈ bpeMerge e.ranks (chunk.map fun b => [b]), g ∈ e.vocab := by
    apply bpeMergeFuel_mem
    · intro g hg
      obtain ⟨b, hb', rfl⟩ := List.mem_map.mp hg
      exact hb b hb'
    · exact hm
  constructor
  · intro t ht
    obtain ⟨g, hg, rfl⟩ := List.mem_map.mp ht
    exact bytesToId_lt _ _ (hmem g hg)
  · rw [Engine.encodeChunk, List.map_map]
    have hmap : (bpeMerge e.ranks (chunk.map fun b => [b])).map
        ((fun i => e.vocab.getD i []) ∘ bytesToId e.vocab) =
        bpeMerge e.ranks (chunk.map fun b => [b]) := by
      have : ∀ g ∈ bpeMerge e.ranks (chunk.map fun b => [b]),
          ((fun i => e.vocab.getD i []) ∘ bytesToId e.vocab) g = id g :=
        fun g hg => bytesToId_getD _ _ (hmem g hg)
      rw [List.map_congr_left this, List.map_id]
    rw [hmap, bpeMerge, bpeMergeFuel_flatten, flatten_singletons]

/-- Encoding a chunk list produces in-range ids whose vocabulary bytes
concatenate back to the chunks' concatenation. -/
theorem encodeChunks_decode (e : Engine) (chunks : List (List Nat))
    (hb : ∀ c ∈ chunks, ∀ b ∈ c, [b] ∈ e.vocab)
    (hm : ∀ a b r, e.ranks a b = some r → a ++ b ∈ e.vocab) :
    (∀ t ∈ (chunks.map e.encodeChunk).flatten, t < e.vocab.length) ∧
    (((chunks.map e.encodeChunk).flatten.map fun i => e.vocab.getD i []).flatten
      = chunks.flatten) := by
  induction chunks with
  | nil => exact ⟨by simp, by simp⟩
  | cons c rest ih =>
    obtain ⟨h1, h2⟩ := encodeChunk_decode e c (hb c (List.mem_cons_self _ _)) hm
    obtain ⟨h3, h4⟩ := ih fun c' hc' => hb c' (List.mem_cons_of_mem _ hc')
    constructor
    · intro t ht
      simp only [List.map_cons, List.flatten_cons, List.mem_append] at ht
      rcases ht with h | h
      · exact h1 t h
      · exact h3 t h
    · simp only [List.map_cons, List.flatten_cons, List.map_append,
        List.flatten_append, h2, h4]

/-- The `u32`-to-`c_int` cast is the identity below `2 ^ 31`. -/
theorem i32ofU32_small (t : Nat) (h : t < 2 ^ 31) : i32ofU32 t = (t : Int) := by
  have hm : t % 2 ^ 32 = t := Nat.mod_eq_of_lt (by omega)
  rw [i32ofU32, hm, if_pos h]

/-! ### Claim theorems -/

/-- C1: with the engine ready, for every valid-UTF-8 text and every buffer
capacity `k`, `tokenizer_encode` writes exactly `min(true_count, k)` token
ids into the caller's buffer — equal to the first `min(true_count, k)` ids
of the untruncated encoding, the rest of the buffer untouched — and
returns the true token count even when it exceeds `k`. (The written
`c_int` cells equal the ids literally because every produced id is below
`2 ^ 31`, as hypothesis `hid` records, and the returned `tokens.len() as
c_int` cast equals the true count because the count is below `2 ^ 31`, as
hypothesis `hcount` records.) -/
theorem C1_encode_truncation (s : FfiState) (e : Engine)
    (hs : s.tokenizer = some e) (bytes : List Nat) (buffer : List Int)
    (k : Nat) (hv : isValidUtf8 bytes = true)
    (hid : ∀ t ∈ e.encodeOrdinary bytes, t < 2 ^ 31)
    (hcount : (e.encodeOrdinary bytes).length < 2 ^ 31) :
    (tokenizer_encode s (some bytes) (some buffer) k).1
      = ((e.encodeOrdinary bytes).length : Int) ∧
    (tokenizer_encode s (some bytes) (some buffer) k).2
      = some ((((e.encodeOrdinary bytes).take
            (min (e.encodeOrdinary bytes).length k)).map Int.ofNat)
          ++ buffer.drop (min (e.encodeOrdinary bytes).length k)) := by
  have hmap : ((e.encodeOrdinary bytes).take
        (min (e.encodeOrdinary bytes).length k)).map i32ofU32
      = ((e.encodeOrdinary bytes).take
        (min (e.encodeOrdinary bytes).length k)).map Int.ofNat :=
    List.map_congr_left fun t ht =>
      i32ofU32_small t (hid t (List.take_subset _ _ ht))
  have hlen : (((e.encodeOrdinary bytes).take
        (min (e.encodeOrdinary bytes).length k)).map Int.ofNat).length
      = min (e.encodeOrdinary bytes).length k := by
    rw [List.length_map, List.length_take]
    omega
  constructor
  · simp [tokenizer_encode, hs, hv, i32ofU32_small _ hcount]
  · simp only [tokenizer_encode, hs, hv, if_true, hmap, hlen]

/-- Witness for C1: the ready model engine, text `"Hello, world!"` (three
tokens) and capacity 2 — two ids are written and 3 is returned. -/
theorem C1_encode_truncation_witness :
    (⟨some mEngine, true, 1⟩ : FfiState).tokenizer = some mEngine ∧
    isValidUtf8 helloWorld = true ∧
    (∀ t ∈ mEngine.encodeOrdinary helloWorld, t < 2 ^ 31) ∧
    (mEngine.encodeOrdinary helloWorld).length < 2 ^ 31 ∧
    ((tokenizer_encode ⟨some mEngine, true, 1⟩ (some helloWorld)
        (some [7, 7]) 2).1 = ((mEngine.encodeOrdinary helloWorld).length : Int) ∧
      (tokenizer_encode ⟨some mEngine, true, 1⟩ (some helloWorld)
        (some [7, 7]) 2).2
        = some ((((mEngine.encodeOrdinary helloWorld).take
              (min (mEngine.encodeOrdinary helloWorld).length 2)).map Int.ofNat)
            ++ ([7, 7] : List Int).drop
              (min (mEngine.encodeOrdinary helloWorld).length 2))) :=
  ⟨rfl, by decide, by decide, by decide,
    C1_encode_truncation ⟨some mEngine, true, 1⟩ mEngine rfl helloWorld
      [7, 7] 2 (by decide) (by decide) (by decide)⟩

/-- A successful rank lookup means the pair is a merge-table entry. -/
theorem lookupRank_mem (table : List ((List Nat × List Nat) × Nat))
    (a b : List Nat) (r : Nat) (h : lookupRank table a b = some r) :
    ((a, b), r) ∈ table := by
  induction table with
  | nil => exact absurd h (by simp [lookupRank])
  | cons entry rest ih =>
    obtain ⟨⟨x, y⟩, r'⟩ := entry
    rw [lookupRank] at h
    by_cases hxy : x = a && y = b
    · rw [if_pos hxy, Option.some.injEq] at h
      subst h
      simp only [Bool.and_eq_true, decide_eq_true_eq] at hxy
      obtain ⟨hx, hy⟩ := hxy
      subst hx
      subst hy
      exact List.mem_cons_self _ _
    · rw [if_neg hxy] at h
      exact List.mem_cons_of_mem _ (ih h)

/-- The model engine's merge table is closed under the model vocabulary:
every merge pair's concatenation is a vocabulary entry. -/
theorem mEngine_closure (a b : List Nat) (r : Nat)
    (h : mEngine.ranks a b = some r) : a ++ b ∈ mEngine.vocab := by
  have hmem : ((a, b), r) ∈ mTable := lookupRank_mem mTable a b r h
  simp only [mTable] at hmem
  fin_cases hmem <;> decide

/-- C2: decode is the exact left-inverse of encode — for every byte
sequence `x` that is valid text, with chunks concatenating back to the
input, every single byte of `x` a vocabulary entry and the merge table
closed under the vocabulary (the spec's well-formedness guarantees for
the cl100k tables), `decode (encode x) = x`. -/
theorem C2_decode_encode (e : Engine) (x : List Nat)
    (hj : (e.pretokenize x).flatten = x)
    (hb : ∀ b ∈ x, [b] ∈ e.vocab)
    (hm : ∀ a b r, e.ranks a b = some r → a ++ b ∈ e.vocab)
    (hx : isValidUtf8 x = true) :
    e.decode (e.encodeOrdinary x) = some x := by
  have hb' : ∀ c ∈ e.pretokenize x, ∀ b ∈ c, [b] ∈ e.vocab := fun c hc b hbc =>
    hb b (hj ▸ List.mem_flatten.mpr ⟨c, hc, hbc⟩)
  obtain ⟨h1, h2⟩ := encodeChunks_decode e (e.pretokenize x) hb' hm
  have hcond : (((e.pretokenize x).map e.encodeChunk).flatten.all
      fun i => i < e.vocab.length) = true := by
    rw [List.all_eq_true]
    intro t ht
    simpa using h1 t ht
  have hdb : e.decodeBytes (e.encodeOrdinary x) = some x := by
    rw [Engine.decodeBytes, Engine.encodeOrdinary, if_pos hcond, h2, hj]
  rw [Engine.decode, hdb]
  simp [hx]

/-- Witness for C2: the model engine round-trips `"Hello, world!"`. -/
theorem C2_decode_encode_witness :
    (mEngine.pretokenize helloWorld).flatten = helloWorld ∧
    (∀ b ∈ helloWorld, [b] ∈ mEngine.vocab) ∧
    isValidUtf8 helloWorld = true ∧
    mEngine.decode (mEngine.encodeOrdinary helloWorld) = some helloWorld :=
  ⟨by decide, by decide, by decide,
    C2_decode_encode mEngine helloWorld (by decide) (by decide)
      mEngine_closure (by decide)⟩

/-- C3 as stated is false on the code: before any initialize,
`tokenizer_count_tokens` of a null pointer returns 0, not the negative
error sentinel -1. -/
theorem C3_counterexample :
    tokenizer_count_tokens initState none = 0 ∧
    tokenizer_count_tokens initState none ≠ -1 :=
  ⟨rfl, by decide⟩

/-- C3 (amended): before any successful initialize, `tokenizer_encode`
returns its negative error sentinel for every input, `tokenizer_decode`
returns null for every input, `tokenizer_is_ready` returns 0, and
`tokenizer_count_tokens` returns its negative error sentinel for every
non-null, non-empty input — while a null pointer or the empty string
returns 0; none of these calls crashes. -/
theorem C3_not_ready (s : FfiState) (hs : s.tokenizer = none) :
    (∀ bytes : List Nat, bytes ≠ [] →
      tokenizer_count_tokens s (some bytes) = -1) ∧
    tokenizer_count_tokens s none = 0 ∧
    tokenizer_count_tokens s (some []) = 0 ∧
    (∀ text buf k, (tokenizer_encode s text buf k).1 = -1) ∧
    (∀ arr cnt, tokenizer_decode s arr cnt = none) ∧
    tokenizer_is_ready s = 0 := by
  refine ⟨?_, rfl, rfl, ?_, ?_, ?_⟩
  · intro bytes hne
    by_cases hv : isValidUtf8 bytes = true
    · simp [tokenizer_count_tokens, hs, hv, hne]
    · simp [tokenizer_count_tokens, hv]
  · intro text buf k
    cases text with
    | none => rfl
    | some bytes =>
      cases buf with
      | none => rfl
      | some buffer =>
        by_cases hv : isValidUtf8 bytes = true
        · simp [tokenizer_encode, hs, hv]
        · simp [tokenizer_encode, hv]
  · intro arr cnt
    cases arr with
    | none => rfl
    | some tokens =>
      by_cases hcnt : cnt = 0
      · simp [tokenizer_decode, hcnt]
      · simp [tokenizer_decode, hcnt, hs]
  · simp [tokenizer_is_ready, hs]

/-- Witness for C3 (amended), at the start state and concrete inputs. -/
theorem C3_not_ready_witness :
    initState.tokenizer = none ∧
    (([104] : List Nat) ≠ []) ∧
    tokenizer_count_tokens initState (some [104]) = -1 ∧
    tokenizer_count_tokens initState none = 0 ∧
    tokenizer_count_tokens initState (some []) = 0 ∧
    (tokenizer_encode initState (some [104]) (some [7]) 1).1 = -1 ∧
    tokenizer_decode initState (some [0]) 1 = none ∧
    tokenizer_is_ready initState = 0 :=
  ⟨rfl, by decide, (C3_not_ready initState rfl).1 [104] (by decide),
    (C3_not_ready initState rfl).2.1,
    (C3_not_ready initState rfl).2.2.1,
    (C3_not_ready initState rfl).2.2.2.1 (some [104]) (some [7]) 1,
    (C3_not_ready initState rfl).2.2.2.2.1 (some [0]) 1,
    (C3_not_ready initState rfl).2.2.2.2.2⟩

/-- C4: in every engine state, `tokenizer_count_tokens` returns 0 on a
null pointer and on the empty string, and `tokenizer_decode` returns null
on a null token-array pointer and on any pointer with count 0. -/
theorem C4_null_empty (s : FfiState) (arr : List Int) (cnt : Nat) :
    tokenizer_count_tokens s none = 0 ∧
    tokenizer_count_tokens s (some []) = 0 ∧
    tokenizer_decode s none cnt = none ∧
    tokenizer_decode s (some arr) 0 = none :=
  ⟨rfl, rfl, rfl, rfl⟩

/-- After the first `tokenizer_initialize` call, `N` calls from the start
state always leave the state with `TOKENIZER = load`, `INIT` complete and
exactly one executed load. -/
theorem initN_state (load : Option Engine) (N : Nat) (hN : 1 ≤ N) :
    initN load N initState = ⟨load, true, 1⟩ := by
  obtain ⟨m, rfl⟩ : ∃ m, N = m + 1 := ⟨N - 1, by omega⟩
  have hfix : ∀ k, initN load k ⟨load, true, 1⟩ = ⟨load, true, 1⟩ := by
    intro k
    induction k with
    | zero => rfl
    | succ j ih =>
      have hstep : (tokenizer_init load ⟨load, true, 1⟩).1 = ⟨load, true, 1⟩ :=
        rfl
      rw [initN, hstep, ih]
  have hstep0 : (tokenizer_init load initState).1 = ⟨load, true, 1⟩ := rfl
  rw [initN, hstep0, hfix m]

/-- C5: for every `N ≥ 1`, `N` initialize calls run exactly one load; the
engine's `TOKENIZER` equals the first load's outcome (so a failed first
attempt leaves it permanently unset), the next call's status equals the
first call's status without redoing work, and `tokenizer_is_ready` is 1
after a successful load regardless of `N`. -/
theorem C5_idempotent (load : Option Engine) (N : Nat) (hN : 1 ≤ N) :
    (initN load N initState).loadCount = 1 ∧
    (initN load N initState).tokenizer = load ∧
    (tokenizer_init load (initN load N initState)).2
      = (tokenizer_init load initState).2 ∧
    tokenizer_is_ready (initN load N initState)
      = (if load.isSome then 1 else 0) := by
  rw [initN_state load N hN]
  exact ⟨rfl, rfl, rfl, rfl⟩

/-- Witness for C5: three initialize calls with a successful load. -/
theorem C5_idempotent_witness :
    1 ≤ 3 ∧
    ((initN (some mEngine) 3 initState).loadCount = 1 ∧
      (initN (some mEngine) 3 initState).tokenizer = some mEngine ∧
      (tokenizer_init (some mEngine) (initN (some mEngine) 3 initState)).2
        = (tokenizer_init (some mEngine) initState).2 ∧
      tokenizer_is_ready (initN (some mEngine) 3 initState)
        = (if (some mEngine).isSome then 1 else 0)) :=
  ⟨by decide, C5_idempotent (some mEngine) 3 (by decide)⟩

/-- C6: with the engine ready, `tokenizer_decode` returns null whenever
some passed token id (read as `u32`) is outside `[0, vocab size)` — in
particular the id equal to the vocabulary size — and returns null
whenever the reconstructed bytes are not valid text. -/
theorem C6_decode_invalid (s : FfiState) (e : Engine)
    (hs : s.tokenizer = some e) (arr : List Int) (cnt : Nat) :
    ((∃ t ∈ (arr.take cnt).map u32ofI32, ¬ t < e.vocab.length) →
      tokenizer_decode s (some arr) cnt = none) ∧
    (∀ bs, e.decodeBytes ((arr.take cnt).map u32ofI32) = some bs →
      isValidUtf8 bs = false → tokenizer_decode s (some arr) cnt = none) := by
  constructor
  · rintro ⟨t, ht, hlt⟩
    have hdb : e.decodeBytes ((arr.take cnt).map u32ofI32) = none := by
      rw [Engine.decodeBytes, if_neg]
      intro hall
      rw [List.all_eq_true] at hall
      exact hlt (by simpa using hall t ht)
    have hdec : e.decode ((arr.take cnt).map u32ofI32) = none := by
      rw [Engine.decode, hdb]
    rw [List.map_take] at hdec
    by_cases hcnt : cnt = 0
    · simp [tokenizer_decode, hcnt]
    · simp [tokenizer_decode, hcnt, hs, hdec]
  · intro bs hdb hutf
    have hdec : e.decode ((arr.take cnt).map u32ofI32) = none := by
      rw [Engine.decode, hdb]
      simp [hutf]
    rw [List.map_take] at hdec
    by_cases hcnt : cnt = 0
    · simp [tokenizer_decode, hcnt]
    · simp [tokenizer_decode, hcnt, hs, hdec]

/-- Witness for C6: id 266 — the model vocabulary's size, one past the
largest valid id — yields null, and a token decoding to the invalid text
byte 0xFF yields null. -/
theorem C6_decode_invalid_witness :
    (⟨some mEngine, true, 1⟩ : FfiState).tokenizer = some mEngine ∧
    (∃ t ∈ (([266] : List Int).take 1).map u32ofI32,
      ¬ t < mEngine.vocab.length) ∧
    tokenizer_decode ⟨some mEngine, true, 1⟩ (some [266]) 1 = none ∧
    mEngine.decodeBytes ((([255] : List Int).take 1).map u32ofI32)
      = some [255] ∧
    isValidUtf8 [255] = false ∧
    tokenizer_decode ⟨some mEngine, true, 1⟩ (some [255]) 1 = none :=
  ⟨rfl, by decide,
    (C6_decode_invalid ⟨some mEngine, true, 1⟩ mEngine rfl [266] 1).1
      (by decide),
    by decide, by decide,
    (C6_decode_invalid ⟨some mEngine, true, 1⟩ mEngine rfl [255] 1).2 [255]
      (by decide) (by decide)⟩

/-- C7: `tokenizer_encode` returns the negative error sentinel on a null
text pointer or a null buffer pointer, and `tokenizer_count_tokens`
returns the negative error sentinel when the bytes are not valid text; in
all cases the result is delivered through the return value (the model
functions are total). -/
theorem C7_null_args (s : FfiState) (buf : Option (List Int)) (k : Nat)
    (bytes : List Nat) :
    (tokenizer_encode s none buf k).1 = -1 ∧
    (tokenizer_encode s (some bytes) none k).1 = -1 ∧
    (isValidUtf8 bytes = false → tokenizer_count_tokens s (some bytes) = -1) := by
  refine ⟨?_, rfl, fun hv => ?_⟩
  · cases buf <;> rfl
  · simp [tokenizer_count_tokens, hv]

/-- Witness for C7: a lone continuation byte 0xFF is invalid text. -/
theorem C7_null_args_witness :
    isValidUtf8 [255] = false ∧
    (tokenizer_encode initState none (some [7]) 1).1 = -1 ∧
    (tokenizer_encode initState (some [255]) none 1).1 = -1 ∧
    tokenizer_count_tokens initState (some [255]) = -1 :=
  ⟨by decide, (C7_null_args initState (some [7]) 1 [255]).1,
    (C7_null_args initState (some [7]) 1 [255]).2.1,
    (C7_null_args initState (some [7]) 1 [255]).2.2 (by decide)⟩

/-- C8: with the engine ready, encoding `"Hello, world!"` yields exactly 3
token ids (id 259 `"Hello"`, id 265 `", world"`, id 33 `"!"` in the model
vocabulary), and decoding those 3 ids returns exactly the bytes of
`"Hello, world!"` — at the boundary functions themselves. -/
theorem C8_hello_world :
    tokenizer_count_tokens ⟨some mEngine, true, 1⟩ (some helloWorld) = 3 ∧
    tokenizer_encode ⟨some mEngine, true, 1⟩ (some helloWorld)
      (some [7, 7, 7]) 3 = (3, some [259, 265, 33]) ∧
    tokenizer_decode ⟨some mEngine, true, 1⟩ (some [259, 265, 33]) 3
      = some helloWorld := by
  refine ⟨by decide, by decide, by decide⟩

/-- C9: `tokenizer_free_string` on a null handle releases nothing and
leaves the allocation state unchanged. -/
theorem C9_free_null (heap : List Nat) :
    tokenizer_free_string heap none = heap := rfl

/-- C10: with the engine ready, `tokenizer_decode` returns null whenever
the decoded byte sequence — even with every token id valid and the bytes
valid text — contains a NUL (0x00) byte, because `CString::new` rejects
interior NULs; such text cannot cross the boundary. -/
theorem C10_interior_nul (s : FfiState) (e : Engine)
    (hs : s.tokenizer = some e) (arr : List Int) (cnt : Nat) (bs : List Nat)
    (hdec : e.decode ((arr.take cnt).map u32ofI32) = some bs)
    (hnul : 0 ∈ bs) :
    tokenizer_decode s (some arr) cnt = none := by
  rw [List.map_take] at hdec
  by_cases hcnt : cnt = 0
  · simp [tokenizer_decode, hcnt]
  · simp [tokenizer_decode, hcnt, hs, hdec, hnul]

/-- Witness for C10: token id 0 decodes to the single byte 0x00 — valid
UTF-8 — and the decode call returns null. -/
theorem C10_interior_nul_witness :
    (⟨some mEngine, true, 1⟩ : FfiState).tokenizer = some mEngine ∧
    mEngine.decode ((([0] : List Int).take 1).map u32ofI32) = some [0] ∧
    (0 ∈ ([0] : List Nat)) ∧
    tokenizer_decode ⟨some mEngine, true, 1⟩ (some [0]) 1 = none :=
  ⟨rfl, by decide, by decide,
    C10_interior_nul ⟨some mEngine, true, 1⟩ mEngine rfl [0] 1 [0]
      (by decide) (by decide)⟩
